import Mathlib

/-!
Verification development for the `traversify` tree-traversal library
(`src/traversify/traverser.py`).  The Python data values (the JSON-like
trees the library operates on) are embedded as the inductive type `Node`;
each operation of the library is translated into a Lean function that
follows the corresponding Python function line by line, with Python
exceptions made explicit through `Except PyErr`.
-/

set_option maxRecDepth 4000

/-- A Python value as manipulated by the library: mappings (`dict`, with
string keys, insertion order preserved), sequences (`list`), and the scalar
values produced by JSON parsing.  `null` doubles as Python `None`. -/
inductive Node where
  | null : Node
  | bool : Bool → Node
  | int : Int → Node
  | str : String → Node
  | list : List Node → Node
  | dict : List (String × Node) → Node
deriving Repr

/-- The Python exceptions the traverser can raise. -/
inductive PyErr where
  | typeError
  | attributeError
  | valueError
  | indexError
deriving Repr, DecidableEq

/-- `type(value) in [list, dict]` (`traversable`, traverser.py line 19). -/
def traversable : Node → Bool
  | .list _ => true
  | .dict _ => true
  | _ => false

/-- `d.get(k)` on a Python dict: the value at the first occurrence of `k`. -/
def dictLookup (k : String) : List (String × Node) → Option Node
  | [] => none
  | (k', v) :: t => if k' = k then some v else dictLookup k t

/-- `d[k] = v` on a Python dict: replace the value at an existing key in
place, otherwise append the new binding (insertion order). -/
def dictSet (k : String) (v : Node) : List (String × Node) → List (String × Node)
  | [] => [(k, v)]
  | (k', v') :: t => if k' = k then (k, v) :: t else (k', v') :: dictSet k v t

/-- Replace the value stored at key `k` by `f` of it (no-op on a missing
key; used only where the key is known to be present). -/
def dictAdjust (k : String) (f : Node → Node) : List (String × Node) → List (String × Node)
  | [] => []
  | (k', v) :: t => if k' = k then (k', f v) :: t else (k', v) :: dictAdjust k f t

/-! ## Path grammar (`split_escaped`, traverser.py lines 10-12)

`split_escaped` first replaces every `..` by the placeholder text
`KQypbNUMED` (Python `str.replace`: left-to-right, non-overlapping), then
splits on `.`, then replaces the placeholder back by `.` inside every
segment. -/

/-- The characters of the reserved placeholder `'KQypbNUMED'`. -/
def phChars : List Char := ['K', 'Q', 'y', 'p', 'b', 'N', 'U', 'M', 'E', 'D']

/-- `path.replace('..', 'KQypbNUMED')`: scan left to right; whenever the
next two characters are both `.` emit the placeholder and skip them. -/
def pyReplace2 : List Char → List Char
  | [] => []
  | [c] => [c]
  | c₁ :: c₂ :: t =>
    if c₁ = '.' ∧ c₂ = '.' then phChars ++ pyReplace2 t
    else c₁ :: pyReplace2 (c₂ :: t)

/-- Helper for splitting: push a character onto the first segment. -/
def consSeg (c : Char) : List (List Char) → List (List Char)
  | [] => [[c]]
  | s :: r => (c :: s) :: r

/-- `s.split('.')` on a Python string (always at least one segment). -/
def splitDot : List Char → List (List Char)
  | [] => [[]]
  | c :: t => if c = '.' then [] :: splitDot t else consSeg c (splitDot t)

/-- `k.replace('KQypbNUMED', '.')`: scan left to right; whenever the next
ten characters are the placeholder, emit a `.` and skip them. -/
def restoreSeg : List Char → List Char
  | 'K' :: 'Q' :: 'y' :: 'p' :: 'b' :: 'N' :: 'U' :: 'M' :: 'E' :: 'D' :: t =>
      '.' :: restoreSeg t
  | c :: t => c :: restoreSeg t
  | [] => []

/-- `split_escaped` (traverser.py lines 10-12). -/
def split_escaped (path : String) : List String :=
  (splitDot (pyReplace2 path.data)).map (fun cs => String.mk (restoreSeg cs))

/-! ## `int(segment)` (Python integer parsing of a path segment) -/

/-- ASCII whitespace stripped by Python `int(str)`. -/
def isPyWs (c : Char) : Bool :=
  c = ' ' ∨ c = '\t' ∨ c = '\n' ∨ c = '\r' ∨ c = '\x0b' ∨ c = '\x0c'

/-- Digit run with single underscores allowed between digits, as accepted
by Python `int` (ASCII digits; returns the accumulated value). -/
def pyDigitsGo (acc : Nat) : List Char → Option Nat
  | [] => some acc
  | '_' :: c :: t =>
      if c.isDigit then pyDigitsGo (acc * 10 + (c.toNat - 48)) t else none
  | c :: t =>
      if c.isDigit then pyDigitsGo (acc * 10 + (c.toNat - 48)) t else none

/-- Nonempty digit run (first character must be a digit). -/
def pyDigits : List Char → Option Nat
  | [] => none
  | c :: t => if c.isDigit then pyDigitsGo (c.toNat - 48) t else none

/-- `int(s)` for a Python `str`: strip whitespace, optional sign, digits
(with underscores between digits); `none` models `ValueError`. -/
def pyToInt (s : String) : Option Int :=
  let core := ((s.data.dropWhile isPyWs).reverse.dropWhile isPyWs).reverse
  match core with
  | '-' :: t => (pyDigits t).map (fun n => -(n : Int))
  | '+' :: t => (pyDigits t).map (fun n => (n : Int))
  | t => (pyDigits t).map (fun n => (n : Int))

/-! ## Read resolution (`Traverser._find`, traverser.py lines 100-120)

The inner `get(node, _keys)` pops a segment, converts it to `int` when the
current node is a list, and calls `node.get(_key)` inside a
`try/except (AttributeError, TypeError, IndexError)` that returns `None`.
`Traverser.get` (lines 96-98) is `self().get(attr, default)`: a dict
lookup when the wrapped value is a dict, and an `AttributeError` when it
is a list (Python lists have no `.get`), which the `except` turns into
`None` for the whole call.  A missing dict key yields Python `None`,
embedded as `Node.null`. -/

def findAux : Node → List String → Except PyErr Node
  | _, [] => .error .indexError   -- `_keys.pop(0)` on an empty list (unreachable)
  | node, k :: rest =>
    match node with
    | .dict m =>
      -- `node.get(_key)` = `self().get(_key, None)`; missing key gives None
      let next := (dictLookup k m).getD .null
      if rest.isEmpty then .ok next
      else if traversable next then findAux next rest
      else .ok .null                -- `not isinstance(next_node, Traverser)`
    | .list _ => .ok .null          -- list has no `.get`: AttributeError, caught
    | _ => .error .typeError        -- `node()` on a raw non-Traverser (unreachable)

/-- `Traverser._find(path)` = `t(path)` for a path string. -/
def pyFind (root : Node) (path : String) : Except PyErr Node :=
  findAux root (split_escaped path)

/-! ## Write resolution (`Traverser._set`, traverser.py lines 122-149)

`set_(node, _keys, parent, parent_key)` mutates through aliased handles:
`parent` is the previous node (always a dict when the recursion is
reached, because only the string branch recurses) and `node` is
`parent.get(parent_key)`.  We therefore thread the whole root tree and
address the parent by its field path from the root (`parentLoc`); every
in-place mutation becomes a functional update at that location.

Branches of the Python code, at a level with `parent` present:
* `_key = int(_key)` succeeds:
  - `node()` raises `TypeError` when `node` is Python `None` or a raw
    scalar (neither is a `Traverser`, so it is not callable);
  - a non-list `Traverser` (a dict) is replaced at the parent by `[{}]`
    and `_key` becomes `0`;
  - a list with `abs(_key) >= len` gets one `{}` appended and `_key`
    becomes the new last index (nonnegative `_key`) or `0` (negative);
  - then a terminal segment assigns into the list; a non-terminal segment
    evaluates `node.get(_key)` on a list, which raises `AttributeError`.
* `int(_key)` fails (`ValueError` branch):
  - `not node or not isinstance(node(), dict)`: falsy values (`None`,
    `False`, `0`, `''`, `[]`) and non-dict `Traverser`s are replaced at
    the parent by `{}`, after which `node = parent(parent_key)` re-reads
    the node via `_find(parent_key)` (which re-splits `parent_key`!);
    a truthy raw scalar raises `TypeError` at `node()`;
  - then a terminal segment does `node[_key] = value` (a `TypeError`
    unless `node` is a dict `Traverser`), and a non-terminal segment
    evaluates `node.get(_key)` (an `AttributeError` unless `node` is a
    dict `Traverser`) and recurses.

A `_find` that returns a dict can only have descended through dicts, so
its location is the parent location extended by the split segments. -/

/-- The dict sitting at a field path from the root (`none` when the path
does not lead through dicts to a dict). -/
def locateDict : Node → List String → Option (List (String × Node))
  | .dict m, [] => some m
  | .dict m, k :: rest =>
    match dictLookup k m with
    | some v => locateDict v rest
    | none => none
  | _, _ => none

/-- Apply `f` to the dict at a field path from the root, rebuilding the
tree along the path (identity when the path does not resolve). -/
def setLocAt : Node → List String → (List (String × Node) → List (String × Node)) → Node
  | .dict m, [], f => .dict (f m)
  | .dict m, k :: rest, f => .dict (dictAdjust k (fun v => setLocAt v rest f) m)
  | other, _, _ => other

/-- Overwrite the entry `key` of the dict at location `loc` with `v`. -/
def setLocField (root : Node) (loc : List String) (key : String) (v : Node) : Node :=
  setLocAt root loc (fun m => dictSet key v m)

/-- Resolve a (possibly negative) in-range Python list index. -/
def pyIndex (len : Nat) (i : Int) : Nat :=
  if 0 ≤ i then i.toNat else len - i.natAbs

/-- The `ValueError` branch's three-way decision on
`not node or not isinstance(node(), dict)`: a truthy dict is kept; a
truthy raw scalar raises `TypeError` at `node()`; everything falsy
(`None`, `False`, `0`, `''`, `[]`) and every non-dict `Traverser`
(any list) is coerced to `{}` at the parent. -/
inductive StrAct where
  | keep
  | coerce
  | raise

/-- Evaluate `not node or not isinstance(node(), dict)` on the value of
`node` (a Python-`None`/raw-scalar/`Traverser` trichotomy; a `Traverser`
over a dict is always truthy because `len` of a non-list is `1`). -/
def strAct : Node → StrAct
  | .dict _ => .keep
  | .bool true => .raise
  | .int n => if n = 0 then .coerce else .raise
  | .str s => if s.isEmpty then .coerce else .raise
  | _ => .coerce    -- None, False, and every list

/-- One recursion level of `set_` with `parent` the dict at `parentLoc`
and `node = parent.get(parentKey)` (the value
`(dictLookup parentKey m).getD .null`, written inline below). -/
def setGo (root : Node) (parentLoc : List String) (parentKey : String) :
    List String → Node → Except PyErr Node
  | [], _ => .error .indexError   -- `_keys.pop(0)` on empty (unreachable)
  | k :: rest, value =>
    match locateDict root parentLoc with
    | none => .error .typeError   -- unreachable: parentLoc always addresses a dict
    | some m =>
      match pyToInt k with
      | some i =>
        match (dictLookup parentKey m).getD .null with
        | .list l =>
          if i.natAbs ≥ l.length then
            -- `parent.get(parent_key).append({})`, then `_key = len(node)-1` or `0`
            if rest.isEmpty then
              .ok (setLocField (setLocField root parentLoc parentKey
                      (.list (l ++ [Node.dict []])))
                    parentLoc parentKey
                    (.list ((l ++ [Node.dict []]).set (if 0 ≤ i then l.length else 0) value)))
            else .error .attributeError   -- `node.get(_key)` on a list
          else
            if rest.isEmpty then
              .ok (setLocField root parentLoc parentKey (.list (l.set (pyIndex l.length i) value)))
            else .error .attributeError   -- `node.get(_key)` on a list
        | .dict _ =>
          -- `parent[parent_key] = [{}]`; `node = parent.get(parent_key)`; `_key = 0`;
          -- a terminal segment then does `node[0] = value` on the fresh `[{}]`
          if rest.isEmpty then
            .ok (setLocField (setLocField root parentLoc parentKey (.list [Node.dict []]))
                  parentLoc parentKey (.list [value]))
          else .error .attributeError     -- `node.get(_key)` on a list
        | _ => .error .typeError          -- `node()` on None or a raw scalar
      | none =>
        match strAct ((dictLookup parentKey m).getD .null) with
        | .raise => .error .typeError
        | .keep =>
          -- `node` stays the dict entry at `parentKey`
          if rest.isEmpty then
            .ok (setLocAt root (parentLoc ++ [parentKey]) (fun dd => dictSet k value dd))
          else setGo root (parentLoc ++ [parentKey]) k rest value
        | .coerce =>
          -- `parent[parent_key] = {}`, then `node = parent(parent_key)`:
          -- a `_find` on the single key `parent_key`, which re-splits it
          match locateDict (setLocAt root parentLoc (fun mm => dictSet parentKey (.dict []) mm))
              parentLoc with
          | none => .error .typeError     -- unreachable
          | some m' =>
            match findAux (.dict m') (split_escaped parentKey) with
            | .error e => .error e
            | .ok (.dict _) =>
              -- a dict from `_find` can only sit at `parentLoc ++ split_escaped parentKey`
              if rest.isEmpty then
                .ok (setLocAt (setLocAt root parentLoc
                        (fun mm => dictSet parentKey (.dict []) mm))
                      (parentLoc ++ split_escaped parentKey) (fun dd => dictSet k value dd))
              else
                setGo (setLocAt root parentLoc (fun mm => dictSet parentKey (.dict []) mm))
                  (parentLoc ++ split_escaped parentKey) k rest value
            | .ok (.list _) =>
              if rest.isEmpty then .error .typeError   -- `list[str] = value`
              else .error .attributeError              -- `list.get`
            | .ok _ =>
              if rest.isEmpty then .error .typeError   -- `None[...] = value`
              else .error .attributeError              -- `None.get` / scalar `.get`

/-- `Traverser._set(path, value)` = `t(path, value)` (lines 122-149).
The top call is `set_(self, keys, None, None)`: with `parent = None`,
the integer branch and every coercion hit `None[...]` (`TypeError`) or
`None.get` (`AttributeError`); only a dict root with a non-integer first
segment proceeds. -/
def pySet (root : Node) (path : String) (value : Node) : Except PyErr Node :=
  match split_escaped path with
  | [] => .error .indexError    -- unreachable: a split is never empty
  | k :: rest =>
    match pyToInt k with
    | some _ =>
      match root with
      | .list _ => .error .attributeError  -- `parent.get(parent_key)` on `None`
      | _ => .error .typeError             -- `parent[parent_key] = [{}]` on `None`
    | none =>
      match root with
      | .dict m =>
        -- root dict is truthy and a dict: no coercion
        if rest.isEmpty then .ok (.dict (dictSet k value m))
        else setGo root [] k rest value
      | _ => .error .typeError             -- `parent[parent_key] = {}` on `None`

/-! ## Remaining view operations -/

/-- Python truthiness of a raw (unwrapped) value, as used by
`elif value and path is None` in `__call__` (line 64). -/
def pyTruthyRaw : Node → Bool
  | .null => false
  | .bool b => b
  | .int n => n != 0
  | .str s => !s.isEmpty
  | .list l => !l.isEmpty
  | .dict m => !m.isEmpty

/-- `ensure_list(value)` (traverser.py lines 40-41). -/
def ensureListL : Node → List Node
  | .list l => l
  | v => [v]

/-- `Traverser.append(item)` (lines 206-213) on the wrapped value: a list
gets the item appended; any other value is replaced by `[value, item]`. -/
def appendOp (v item : Node) : Node :=
  match v with
  | .list l => .list (l ++ [item])
  | w => .list [w, item]

/-- `Traverser.extend(item)` (lines 215-222): the item is normalized with
`ensure_list`; a list is extended, any other value becomes
`[value] + items`. -/
def extendOp (v item : Node) : Node :=
  match v with
  | .list l => .list (l ++ ensureListL item)
  | w => .list (w :: ensureListL item)

/-- `Traverser.__init__` after the `json`-accessor and string-decoding
resolution steps (lines 50-53): a resolved value that is not a list or a
dict raises `ValueError`; `deepcopy` rebuilds an equal tree, so the
wrapped value is the input itself. -/
def mkTraverser (v : Node) : Except PyErr Node :=
  if traversable v then .ok v else .error .valueError

/-- `Traverser.__call__(path, value)` (lines 59-67).  `none` stands for an
omitted/`None` argument (Python cannot tell these apart). -/
def pyCall (root : Node) (path? : Option String) (value? : Option Node) :
    Except PyErr Node :=
  match path?, value? with
  | some p, none => pyFind root p
  | some p, some v => pySet root p v
  | none, some v => if pyTruthyRaw v then .error .valueError else .ok root
  | none, none => .ok root

/-! ## Python `==` on trees (used by `Traverser.__eq__`, line 179)

Python equality: `True == 1` and `False == 0`; lists compare
pointwise; dicts compare as finite maps (same size, same value at every
key of the left side); every other mixed pair is unequal. -/

/-- `dictLookup` only returns values smaller than the whole dict. -/
theorem sizeOf_dictLookup {m : List (String × Node)} {k : String} {v : Node}
    (h : dictLookup k m = some v) : sizeOf v < sizeOf m := by
  induction m with
  | nil => simp [dictLookup] at h
  | cons p t ih =>
    obtain ⟨k', v'⟩ := p
    simp only [dictLookup] at h
    by_cases hk : k' = k
    · simp [hk] at h
      subst h
      simp only [List.cons.sizeOf_spec, Prod.mk.sizeOf_spec]
      omega
    · simp [hk] at h
      have := ih h
      simp only [List.cons.sizeOf_spec, Prod.mk.sizeOf_spec]
      omega

mutual

/-- Python `==` between two trees. -/
def pyEq : Node → Node → Bool
  | .null, .null => true
  | .bool a, .bool b => a == b
  | .bool a, .int n => (if a then (1 : Int) else 0) == n
  | .int n, .bool b => n == (if b then (1 : Int) else 0)
  | .int a, .int b => a == b
  | .str a, .str b => a == b
  | .list a, .list b => pyEqList a b
  | .dict a, .dict b => a.length == b.length && pyEqEntries a b
  | _, _ => false
termination_by a b => sizeOf a + sizeOf b
decreasing_by
  all_goals simp_wf
  all_goals omega

/-- Pointwise Python `==` on two lists of equal intent. -/
def pyEqList : List Node → List Node → Bool
  | [], [] => true
  | a :: as, b :: bs => pyEq a b && pyEqList as bs
  | _, _ => false
termination_by l r => sizeOf l + sizeOf r
decreasing_by
  all_goals simp_wf
  all_goals omega

/-- Every entry of the left dict is present and `==` in the right dict. -/
def pyEqEntries : List (String × Node) → List (String × Node) → Bool
  | [], _ => true
  | (k, v) :: t, b =>
    (match h : dictLookup k b with
     | some w => pyEq v w
     | none => false) && pyEqEntries t b
termination_by l b => sizeOf l + sizeOf b
decreasing_by
  all_goals simp_wf
  all_goals try omega
  all_goals
    have hs := sizeOf_dictLookup h
    omega

end

/-! ## `Filter` (traverser.py lines 249-302)

A filter carries a blacklist and a whitelist (each normalized to a list
by `ensure_list`; `None` becomes `[]`).  `are_equal` compares two trees
structurally, filtering dict keys; `prune` deletes non-retained keys at
every dict level, in place. -/

structure PyFilter where
  blacklist : List String
  whitelist : List String

/-- Stable insertion into an ascending list (used to model Python's
`sorted`, which is a stable ascending sort; any stable sort computes the
same list). -/
def insertSorted (x : String) : List String → List String
  | [] => [x]
  | y :: t => if y ≤ x then y :: insertSorted x t else x :: y :: t

/-- `sorted(keys)` for string keys. -/
def sortStrings : List String → List String
  | [] => []
  | x :: t => insertSorted x (sortStrings t)

/-- The filtered, sorted key sequence of one side in `are_equal`
(lines 267-274): sort the keys, drop blacklisted keys when a blacklist is
configured, then keep only whitelisted keys when a whitelist is
configured. -/
def filteredKeys (f : PyFilter) (m : List (String × Node)) : List String :=
  let ks := sortStrings (m.map Prod.fst)
  let ks := if f.blacklist.isEmpty then ks else ks.filter (fun k => !f.blacklist.contains k)
  if f.whitelist.isEmpty then ks else ks.filter (fun k => f.whitelist.contains k)

mutual

/-- `Filter.are_equal(left, right)` (lines 254-283). -/
def areEqual (f : PyFilter) : Node → Node → Bool
  | .list a, .list b => areEqualList f a b
  | .dict a, .dict b =>
    let ka := filteredKeys f a
    let kb := filteredKeys f b
    ka == kb && areEqualKeys f ka a b
  | a, b => pyEq a b    -- fall through to `left_value == right_value`
termination_by a b => (sizeOf a + sizeOf b, 0)

/-- Same length and pairwise recursive equality (lines 258-264). -/
def areEqualList (f : PyFilter) : List Node → List Node → Bool
  | [], [] => true
  | a :: as, b :: bs => areEqual f a b && areEqualList f as bs
  | _, _ => false
termination_by l r => (sizeOf l + sizeOf r, 0)

/-- `for key in left_keys: are_equal(left_value[key], right_value[key])`
(lines 277-279); both lookups succeed because every compared key occurs
in both key lists. -/
def areEqualKeys (f : PyFilter) : List String → List (String × Node) → List (String × Node) → Bool
  | [], _, _ => true
  | k :: ks, a, b =>
    (match ha : dictLookup k a, hb : dictLookup k b with
     | some v, some w => areEqual f v w
     | _, _ => true) && areEqualKeys f ks a b
termination_by ks a b => (sizeOf a + sizeOf b, ks.length)
decreasing_by
  all_goals simp_wf
  all_goals first
    | (apply Prod.Lex.right; omega)
    | (have h1 := sizeOf_dictLookup ha
       have h2 := sizeOf_dictLookup hb
       apply Prod.Lex.left
       omega)
    | (apply Prod.Lex.left; omega)
    | omega

end

/-- A key survives the blacklist-then-whitelist selection (the membership
test `key in keys` of `prune`, with `keys` the filtered key list computed
on lines 293-297; for a key of the dict this is a pointwise test). -/
def retainedKey (f : PyFilter) (k : String) : Bool :=
  (f.blacklist.isEmpty || !f.blacklist.contains k) &&
  (f.whitelist.isEmpty || f.whitelist.contains k)

mutual

/-- `Filter.prune(value)` (lines 285-302), as the tree it leaves behind:
scalars unchanged, list elements pruned in place, dict keys that are not
retained deleted and retained values pruned. -/
def pruneNode (f : PyFilter) : Node → Node
  | .list l => .list (pruneList f l)
  | .dict m => .dict (pruneDict f m)
  | v => v
termination_by n => sizeOf n

/-- Prune every element of a list (no element is removed). -/
def pruneList (f : PyFilter) : List Node → List Node
  | [] => []
  | v :: t => pruneNode f v :: pruneList f t
termination_by l => sizeOf l

/-- Prune a dict: drop non-retained keys, prune retained values. -/
def pruneDict (f : PyFilter) : List (String × Node) → List (String × Node)
  | [] => []
  | (k, v) :: t =>
    if retainedKey f k then (k, pruneNode f v) :: pruneDict f t
    else pruneDict f t
termination_by m => sizeOf m

end

/-- `Traverser.__eq__(other)` (lines 177-181): plain Python `==` without
an attached filter, otherwise the filter's `are_equal`. -/
def viewEq (filt : Option PyFilter) (a b : Node) : Bool :=
  match filt with
  | none => pyEq a b
  | some f => areEqual f a b

/-! ## Claim-side reference splitter (specification wording of §4.1)

The spec describes the path grammar as: split on `.`, except that a
literal `..` always denotes one `.` character inside the current segment
and never two separators.  `refSplitChars` writes exactly that rule as a
two-token scan, independent of the placeholder trick of the source. -/

/-- The path grammar as worded by the spec: scan left to right, `..`
adds a literal dot to the current segment, a lone `.` ends the segment. -/
def refSplitChars : List Char → List (List Char)
  | [] => [[]]
  | [c] => if c = '.' then [[], []] else [[c]]
  | c₁ :: c₂ :: t =>
    if c₁ = '.' ∧ c₂ = '.' then consSeg '.' (refSplitChars t)
    else if c₁ = '.' then [] :: refSplitChars (c₂ :: t)
    else consSeg c₁ (refSplitChars (c₂ :: t))

/-- The spec-worded parse of a path string. -/
def refSplitStr (p : String) : List String :=
  (refSplitChars p.data).map String.mk

/-- `pattern` is an initial run of `target`. -/
def listStarts : List Char → List Char → Bool
  | [], _ => true
  | _ :: _, [] => false
  | a :: as, b :: bs => a == b && listStarts as bs

/-- The input contains the reserved placeholder text as a subword. -/
def hasPH : List Char → Bool
  | [] => false
  | c :: t => listStarts phChars (c :: t) || hasPH t

/-! ### Equivalence of `split_escaped` with the spec's splitting rule -/

/-- Prepend a dot-free run to the first segment of a split. -/
def consSegAll (a : List Char) : List (List Char) → List (List Char)
  | [] => [a]
  | s :: r => (a ++ s) :: r

theorem splitDot_ne_nil (l : List Char) : splitDot l ≠ [] := by
  cases l with
  | nil => simp [splitDot]
  | cons c t =>
    simp only [splitDot]
    split
    · simp
    · cases splitDot t <;> simp [consSeg]

theorem splitDot_append_nodot (a : List Char) (ha : ∀ c ∈ a, c ≠ '.') (x : List Char) :
    splitDot (a ++ x) = consSegAll a (splitDot x) := by
  induction a with
  | nil =>
    cases h : splitDot x with
    | nil => exact absurd h (splitDot_ne_nil x)
    | cons s r => simp [consSegAll, h]
  | cons c a ih =>
    have hc : c ≠ '.' := ha c (by simp)
    have ha' : ∀ c ∈ a, c ≠ '.' := fun d hd => ha d (by simp [hd])
    simp only [List.cons_append, splitDot, hc, if_false, List.append_eq]
    rw [ih ha']
    cases h : splitDot x with
    | nil => exact absurd h (splitDot_ne_nil x)
    | cons s r => simp [consSegAll, consSeg]

theorem restoreSeg_ph_append (y : List Char) :
    restoreSeg (phChars ++ y) = '.' :: restoreSeg y := rfl

set_option maxHeartbeats 1000000 in
theorem restoreSeg_cons_not_ph (c : Char) (t : List Char)
    (h : listStarts phChars (c :: t) = false) :
    restoreSeg (c :: t) = c :: restoreSeg t := by
  rw [restoreSeg.eq_def]
  split
  · rename_i t' heq
    exfalso
    rw [heq] at h
    simp [phChars, listStarts] at h
  · rename_i c' t' _ heq
    injection heq with h1 h2
    subst h1
    subst h2
    rfl
  · rename_i heq
    exact absurd heq (by simp)

theorem listStarts_trans {w s x : List Char} (h1 : listStarts w s = true)
    (h2 : listStarts s x = true) : listStarts w x = true := by
  induction w generalizing s x with
  | nil => simp [listStarts]
  | cons a as ih =>
    cases s with
    | nil => simp [listStarts] at h1
    | cons b bs =>
      cases x with
      | nil => simp [listStarts] at h2
      | cons d ds =>
        simp only [listStarts, Bool.and_eq_true, beq_iff_eq] at h1 h2 ⊢
        exact ⟨h1.1.trans h2.1, ih h1.2 h2.2⟩

theorem listStarts_replace2 (w : List Char) (hw : ∀ c ∈ w, c ≠ '.' ∧ c ≠ 'K') :
    ∀ u, listStarts w (pyReplace2 u) = true → listStarts w u = true := by
  induction w with
  | nil => intro u _; simp [listStarts]
  | cons a as ih =>
    intro u h
    have ha := hw a (by simp)
    have hw' : ∀ c ∈ as, c ≠ '.' ∧ c ≠ 'K' := fun d hd => hw d (by simp [hd])
    match u with
    | [] => simp [pyReplace2, listStarts] at h
    | [c] =>
      simp only [pyReplace2] at h
      cases as with
      | nil =>
        simp only [listStarts, Bool.and_eq_true] at h ⊢
        exact ⟨h.1, by simp [listStarts]⟩
      | cons b bs => simp [listStarts] at h
    | c₁ :: c₂ :: t =>
      simp only [pyReplace2] at h
      by_cases hd : c₁ = '.' ∧ c₂ = '.'
      · rw [if_pos hd] at h
        simp [phChars, listStarts] at h
        exact absurd h.1 ha.2
      · rw [if_neg hd] at h
        simp only [listStarts, Bool.and_eq_true] at h ⊢
        exact ⟨h.1, ih hw' (c₂ :: t) h.2⟩

theorem splitDot_head_starts :
    ∀ (x : List Char) s r, splitDot x = s :: r → listStarts s x = true := by
  intro x
  induction x with
  | nil =>
    intro s r h
    simp only [splitDot] at h
    injection h with h1 h2
    subst h1
    simp [listStarts]
  | cons c t ih =>
    intro s r h
    simp only [splitDot] at h
    by_cases hc : c = '.'
    · rw [if_pos hc] at h
      injection h with h1 h2
      subst h1
      simp [listStarts]
    · rw [if_neg hc] at h
      cases hsp : splitDot t with
      | nil => exact absurd hsp (splitDot_ne_nil t)
      | cons s₀ r₀ =>
        rw [hsp] at h
        simp only [consSeg] at h
        injection h with h1 h2
        subst h1
        simp only [listStarts, beq_self_eq_true, Bool.true_and]
        exact ih s₀ r₀ hsp

/-- On every input that does not contain the reserved placeholder text,
the source's replace/split/replace splitting computes exactly the
grammar the spec describes. -/
theorem splitEsc_chars_eq (s : List Char) (h : hasPH s = false) :
    (splitDot (pyReplace2 s)).map restoreSeg = refSplitChars s := by
  match s with
  | [] => rfl
  | [c] =>
    by_cases hc : c = '.'
    · subst hc; rfl
    · have hre := restoreSeg_cons_not_ph c [] (by simp [phChars, listStarts])
      simp [pyReplace2, splitDot, consSeg, refSplitChars, hc, hre, restoreSeg]
  | c₁ :: c₂ :: t =>
    simp only [hasPH, Bool.or_eq_false_iff] at h
    have h1 : listStarts phChars (c₁ :: c₂ :: t) = false := h.1
    have hPH2 : hasPH (c₂ :: t) = false := by
      simp [hasPH, h.2.1, h.2.2]
    have hPH3 : hasPH t = false := h.2.2
    by_cases hd : c₁ = '.' ∧ c₂ = '.'
    · obtain ⟨e1, e2⟩ := hd
      subst e1; subst e2
      have IH := splitEsc_chars_eq t hPH3
      cases hsp : splitDot (pyReplace2 t) with
      | nil => exact absurd hsp (splitDot_ne_nil _)
      | cons s₀ r₀ =>
        rw [hsp] at IH
        simp only [List.map_cons] at IH
        rw [show pyReplace2 ('.' :: '.' :: t) = phChars ++ pyReplace2 t from by
              simp [pyReplace2]]
        rw [splitDot_append_nodot phChars (by decide) _, hsp]
        simp only [consSegAll, List.map_cons]
        rw [restoreSeg_ph_append]
        rw [show refSplitChars ('.' :: '.' :: t) = consSeg '.' (refSplitChars t) from by
              simp [refSplitChars]]
        rw [← IH]
        simp [consSeg]
    · have IH := splitEsc_chars_eq (c₂ :: t) hPH2
      have hrep : pyReplace2 (c₁ :: c₂ :: t) = c₁ :: pyReplace2 (c₂ :: t) := by
        simp [pyReplace2, hd]
      by_cases hc1 : c₁ = '.'
      · subst hc1
        have hc2 : c₂ ≠ '.' := fun he => hd ⟨rfl, he⟩
        rw [hrep]
        rw [show splitDot ('.' :: pyReplace2 (c₂ :: t))
              = [] :: splitDot (pyReplace2 (c₂ :: t)) from by simp [splitDot]]
        simp only [List.map_cons]
        rw [show refSplitChars ('.' :: c₂ :: t) = [] :: refSplitChars (c₂ :: t) from by
              simp [refSplitChars, hc2]]
        rw [IH]
        rfl
      · rw [hrep]
        rw [show splitDot (c₁ :: pyReplace2 (c₂ :: t))
              = consSeg c₁ (splitDot (pyReplace2 (c₂ :: t))) from by simp [splitDot, hc1]]
        cases hsp : splitDot (pyReplace2 (c₂ :: t)) with
        | nil => exact absurd hsp (splitDot_ne_nil _)
        | cons s₀ r₀ =>
          simp only [consSeg, List.map_cons]
          have hnot : listStarts phChars (c₁ :: s₀) = false := by
            by_contra hcon
            rw [Bool.not_eq_false] at hcon
            have hx : ('K' == c₁) = true ∧
                listStarts ['Q', 'y', 'p', 'b', 'N', 'U', 'M', 'E', 'D'] s₀ = true := by
              simpa [phChars, listStarts, Bool.and_eq_true] using hcon
            have hs₀ : listStarts ['Q', 'y', 'p', 'b', 'N', 'U', 'M', 'E', 'D']
                (pyReplace2 (c₂ :: t)) = true :=
              listStarts_trans hx.2 (splitDot_head_starts _ s₀ r₀ hsp)
            have ht : listStarts ['Q', 'y', 'p', 'b', 'N', 'U', 'M', 'E', 'D']
                (c₂ :: t) = true :=
              listStarts_replace2 _ (by decide) _ hs₀
            rw [show listStarts phChars (c₁ :: c₂ :: t) = (('K' == c₁) &&
                  listStarts ['Q', 'y', 'p', 'b', 'N', 'U', 'M', 'E', 'D'] (c₂ :: t))
                from by simp [phChars, listStarts]] at h1
            rw [hx.1, ht] at h1
            simp at h1
          rw [restoreSeg_cons_not_ph c₁ s₀ hnot]
          rw [hsp] at IH
          simp only [List.map_cons] at IH
          rw [show refSplitChars (c₁ :: c₂ :: t) = consSeg c₁ (refSplitChars (c₂ :: t))
                from by simp [refSplitChars, hd, hc1]]
          rw [← IH]
          simp [consSeg]
termination_by s.length

/-! ## Supporting lemmas -/

theorem split_escaped_ne_nil (p : String) : split_escaped p ≠ [] := by
  unfold split_escaped
  cases h : splitDot (pyReplace2 p.data) with
  | nil => exact absurd h (splitDot_ne_nil _)
  | cons s r => simp

/-- `_find` never raises on a container root: every failure is caught and
becomes `None`. -/
theorem findAux_isOk (keys : List String) :
    ∀ t : Node, traversable t = true → keys ≠ [] → (findAux t keys).isOk = true := by
  induction keys with
  | nil => intro t _ hne; exact absurd rfl hne
  | cons k rest ih =>
    intro t ht _
    cases t with
    | dict m =>
      simp only [findAux]
      by_cases hr : rest.isEmpty
      · simp [hr, Except.isOk, Except.toBool]
      · simp only [hr, if_false]
        by_cases htr : traversable ((dictLookup k m).getD .null) = true
        · simp only [htr, if_true]
          exact ih _ htr (by simpa [List.isEmpty_iff] using hr)
        · simp [htr, Except.isOk, Except.toBool]
    | list l => simp [findAux, Except.isOk, Except.toBool]
    | null => simp [traversable] at ht
    | bool b => simp [traversable] at ht
    | int n => simp [traversable] at ht
    | str s => simp [traversable] at ht

theorem dictLookup_dictSet_self (k : String) (v : Node) (m : List (String × Node)) :
    dictLookup k (dictSet k v m) = some v := by
  induction m with
  | nil => simp [dictSet, dictLookup]
  | cons p t ih =>
    obtain ⟨k', v'⟩ := p
    by_cases hk : k' = k
    · subst hk; simp [dictSet, dictLookup]
    · simp [dictSet, dictLookup, hk, ih]

theorem dictLookup_dictAdjust_self (k : String) (f : Node → Node) (m : List (String × Node)) :
    dictLookup k (dictAdjust k f m) = (dictLookup k m).map f := by
  induction m with
  | nil => simp [dictAdjust, dictLookup]
  | cons p t ih =>
    obtain ⟨k', v'⟩ := p
    by_cases hk : k' = k
    · subst hk; simp [dictAdjust, dictLookup]
    · simp [dictAdjust, dictLookup, hk, ih]

theorem dictSet_dictSet (k : String) (x y : Node) (m : List (String × Node)) :
    dictSet k x (dictSet k y m) = dictSet k x m := by
  induction m with
  | nil => simp [dictSet]
  | cons p t ih =>
    obtain ⟨k', v'⟩ := p
    by_cases hk : k' = k
    · subst hk; simp [dictSet]
    · simp [dictSet, hk, ih]

theorem dictAdjust_dictAdjust (k : String) (f g : Node → Node) (m : List (String × Node)) :
    dictAdjust k g (dictAdjust k f m) = dictAdjust k (fun v => g (f v)) m := by
  induction m with
  | nil => simp [dictAdjust]
  | cons p t ih =>
    obtain ⟨k', v'⟩ := p
    by_cases hk : k' = k
    · subst hk; simp [dictAdjust]
    · simp [dictAdjust, hk, ih]

theorem locateDict_setLocAt {root : Node} {loc : List String} {m : List (String × Node)}
    (f : List (String × Node) → List (String × Node))
    (h : locateDict root loc = some m) :
    locateDict (setLocAt root loc f) loc = some (f m) := by
  induction loc generalizing root with
  | nil =>
    cases root <;> simp [locateDict] at h
    subst h
    simp [setLocAt, locateDict]
  | cons k rest ih =>
    cases root <;> simp [locateDict] at h
    rename_i m₀
    cases hl : dictLookup k m₀ with
    | none => rw [hl] at h; simp at h
    | some v =>
      rw [hl] at h
      simp only [setLocAt, locateDict, dictLookup_dictAdjust_self, hl, Option.map_some']
      exact ih h

theorem locateDict_append (l₁ : List String) :
    ∀ (root : Node) (l₂ : List String),
      locateDict root (l₁ ++ l₂) =
        (match locateDict root l₁ with
         | some m => locateDict (.dict m) l₂
         | none => none) := by
  induction l₁ with
  | nil => intro root l₂; cases root <;> simp [locateDict]
  | cons k rest ih =>
    intro root l₂
    cases root <;> simp [locateDict]
    rename_i m₀
    cases hl : dictLookup k m₀ with
    | none => simp
    | some v => simp [ih v l₂]

theorem setLocAt_setLocAt (loc : List String) :
    ∀ (root : Node) (f g : List (String × Node) → List (String × Node)),
      setLocAt (setLocAt root loc f) loc g = setLocAt root loc (fun m => g (f m)) := by
  induction loc with
  | nil => intro root f g; cases root <;> simp [setLocAt]
  | cons k rest ih =>
    intro root f g
    cases root <;> simp only [setLocAt]
    rw [dictAdjust_dictAdjust]
    have hfun : (fun v => setLocAt (setLocAt v rest f) rest g)
        = (fun v => setLocAt v rest fun m => g (f m)) := funext fun v => ih v f g
    rw [hfun]

theorem setLocAt_dict (m : List (String × Node)) (loc : List String)
    (f : List (String × Node) → List (String × Node)) :
    ∃ m', setLocAt (.dict m) loc f = .dict m' := by
  cases loc with
  | nil => exact ⟨f m, rfl⟩
  | cons k rest => exact ⟨dictAdjust k (fun v => setLocAt v rest f) m, rfl⟩

theorem list_set_append_last (l : List Node) (x v : Node) :
    (l ++ [x]).set l.length v = l ++ [v] := by
  induction l with
  | nil => rfl
  | cons a t ih => simp [List.set, ih]

/-- Every successful `set_` level leaves the root a dict (it only rewrites
inside the tree through `setLocAt`). -/
theorem setGo_ok_dict (keys : List String) :
    ∀ (m : List (String × Node)) (loc : List String) (pk : String) (v r : Node),
      setGo (.dict m) loc pk keys v = .ok r → ∃ m', r = .dict m' := by
  induction keys with
  | nil =>
    intro m loc pk v r h
    unfold setGo at h
    exact Except.noConfusion h
  | cons k rest ih =>
    intro m loc pk v r h
    unfold setGo at h
    repeat' split at h
    all_goals try (exact Except.noConfusion h)
    all_goals try (injection h with h; subst h)
    all_goals first
      | (unfold setLocField; rw [setLocAt_setLocAt]; exact setLocAt_dict _ _ _)
      | (unfold setLocField; exact setLocAt_dict _ _ _)
      | (rw [setLocAt_setLocAt]; exact setLocAt_dict _ _ _)
      | (exact setLocAt_dict _ _ _)
      | (exact ih _ _ _ _ _ h)
      | (obtain ⟨mc, hmc⟩ := setLocAt_dict m loc (fun mm₃ => dictSet pk (Node.dict []) mm₃)
         first
           | (rw [hmc] at h; exact ih _ _ _ _ _ h)
           | (rw [hmc]; exact setLocAt_dict _ _ _))

/-- The out-of-range write with a nonnegative terminal integer segment:
exactly one empty dict is appended and the value lands in the appended
slot. -/
theorem setGo_append_nonneg {root : Node} {loc : List String} {pk : String}
    {m : List (String × Node)} {l : List Node} {seg : String} {i : Int} (v : Node)
    (hloc : locateDict root loc = some m)
    (hlk : dictLookup pk m = some (.list l))
    (hseg : pyToInt seg = some i) (hpos : 0 ≤ i) (hlen : l.length ≤ i.natAbs) :
    setGo root loc pk [seg] v
      = .ok (setLocAt root loc (fun mm => dictSet pk (.list (l ++ [v])) mm)) := by
  unfold setGo
  simp only [hloc, hseg, hlk, Option.getD_some, ge_iff_le, hlen, if_true, List.isEmpty_nil,
    hpos, if_pos, list_set_append_last]
  unfold setLocField
  rw [setLocAt_setLocAt]
  have hfun : (fun mm => dictSet pk (Node.list (l ++ [v]))
        (dictSet pk (Node.list (l ++ [Node.dict []])) mm))
      = (fun mm => dictSet pk (Node.list (l ++ [v])) mm) :=
    funext fun mm => dictSet_dictSet ..
  rw [hfun]

/-- A successful `_set` leaves the root a container (in fact a dict). -/
theorem pySet_ok_traversable {root : Node} {path : String} {value r : Node}
    (h : pySet root path value = .ok r) : traversable r = true := by
  unfold pySet at h
  repeat' split at h
  all_goals try (exact Except.noConfusion h)
  all_goals first
    | (injection h with h; subst h; rfl)
    | (obtain ⟨m', hm'⟩ := setGo_ok_dict _ _ _ _ _ _ h
       subst hm'; rfl)

theorem mem_insertSorted {a x : String} {l : List String} :
    a ∈ insertSorted x l ↔ a = x ∨ a ∈ l := by
  induction l with
  | nil => simp [insertSorted]
  | cons y t ih =>
    simp only [insertSorted]
    split <;> simp [ih] <;> tauto

theorem mem_sortStrings {a : String} {l : List String} :
    a ∈ sortStrings l ↔ a ∈ l := by
  induction l with
  | nil => simp [sortStrings]
  | cons x t ih => simp [sortStrings, mem_insertSorted, ih]

theorem dictLookup_isSome_of_mem {k : String} {m : List (String × Node)}
    (h : k ∈ m.map Prod.fst) : (dictLookup k m).isSome = true := by
  induction m with
  | nil => simp at h
  | cons p t ih =>
    obtain ⟨k', v⟩ := p
    by_cases hk : k' = k
    · simp [dictLookup, hk]
    · simp only [List.map_cons, List.mem_cons] at h
      rcases h with h | h
      · exact absurd h.symm hk
      · simp [dictLookup, hk, ih h]

theorem mem_filteredKeys {f : PyFilter} {m : List (String × Node)} {k : String}
    (h : k ∈ filteredKeys f m) : k ∈ m.map Prod.fst := by
  have h' : k ∈ sortStrings (m.map Prod.fst) := by
    unfold filteredKeys at h
    by_cases hb : f.blacklist.isEmpty <;> by_cases hw : f.whitelist.isEmpty <;>
      simp only [hb, hw, if_true, if_false] at h <;>
      first
        | exact h
        | exact List.mem_of_mem_filter h
        | exact List.mem_of_mem_filter (List.mem_of_mem_filter h)
  exact mem_sortStrings.mp h'

theorem areEqualKeys_eq_all (f : PyFilter) (ks : List String) (a b : List (String × Node))
    (ha : ∀ k ∈ ks, (dictLookup k a).isSome = true)
    (hb : ∀ k ∈ ks, (dictLookup k b).isSome = true) :
    areEqualKeys f ks a b
      = ks.all (fun k =>
          areEqual f ((dictLookup k a).getD .null) ((dictLookup k b).getD .null)) := by
  induction ks with
  | nil => simp [areEqualKeys]
  | cons k t ih =>
    obtain ⟨va, hva⟩ := Option.isSome_iff_exists.mp (ha k (by simp))
    obtain ⟨vb, hvb⟩ := Option.isSome_iff_exists.mp (hb k (by simp))
    simp only [areEqualKeys, List.all_cons, hva, hvb, Option.getD_some]
    rw [ih (fun x hx => ha x (by simp [hx])) (fun x hx => hb x (by simp [hx]))]
    congr 1
    split
    · rename_i v w hv hw
      rw [hva] at hv
      rw [hvb] at hw
      injection hv with hv
      injection hw with hw
      rw [hv, hw]
    · rename_i hcon
      exact (hcon va vb hva hvb).elim

/-- `are_equal` on two dicts is: identical filtered sorted key sequences,
then recursively equal values at every retained key. -/
theorem areEqual_dict_char (f : PyFilter) (l r : List (String × Node)) :
    areEqual f (.dict l) (.dict r)
      = ((filteredKeys f l == filteredKeys f r) &&
         (filteredKeys f l).all (fun k =>
           areEqual f ((dictLookup k l).getD .null) ((dictLookup k r).getD .null))) := by
  rw [show areEqual f (.dict l) (.dict r)
        = ((filteredKeys f l == filteredKeys f r) &&
           areEqualKeys f (filteredKeys f l) l r) from by rw [areEqual]]
  by_cases heq : filteredKeys f l = filteredKeys f r
  · rw [areEqualKeys_eq_all f (filteredKeys f l) l r
      (fun k hk => dictLookup_isSome_of_mem (mem_filteredKeys hk))
      (fun k hk => dictLookup_isSome_of_mem (mem_filteredKeys (heq ▸ hk)))]
  · have hbeq : (filteredKeys f l == filteredKeys f r) = false :=
      beq_eq_false_iff_ne.mpr heq
    rw [hbeq]
    simp

theorem pruneDict_eq (f : PyFilter) (m : List (String × Node)) :
    pruneDict f m
      = (m.filter (fun kv => retainedKey f kv.1)).map (fun kv => (kv.1, pruneNode f kv.2)) := by
  induction m with
  | nil => simp [pruneDict]
  | cons p t ih =>
    obtain ⟨k, v⟩ := p
    by_cases hk : retainedKey f k
    · simp [pruneDict, hk, ih, List.filter]
    · simp [pruneDict, hk, ih, List.filter]

theorem pruneList_eq (f : PyFilter) (l : List Node) :
    pruneList f l = l.map (pruneNode f) := by
  induction l with
  | nil => simp [pruneList]
  | cons v t ih => simp [pruneList, ih]

/-! ## The claims -/

/-- Claim C1: the spec asserts read/write consistency — `set(P, V)` then
`get(P)` on the same root returns `V`; from root `{}`, `set("a.0.b", 5)`
then `get("a.0.b")` gives `5` and `get("a")` gives `[{"b": 5}]`.  The
code violates this: `_set("a.0.b", 5)` on `{}` raises `TypeError`
(`None` is not callable at segment `"0"`, line 130), and even on the
tree the spec expects the write to build, `get("a.0.b")` returns `None`
because reads through a list always fail (`list.get` raises
`AttributeError`, caught on line 111), while `get("a")` does return the
list. -/
theorem claim_C1 :
    pySet (.dict []) "a.0.b" (.int 5) = .error .typeError ∧
    pyFind (.dict [("a", .list [.dict [("b", .int 5)]])]) "a.0.b" = .ok .null ∧
    pyFind (.dict [("a", .list [.dict [("b", .int 5)]])]) "a"
      = .ok (.list [.dict [("b", .int 5)]]) :=
  ⟨rfl, rfl, rfl⟩

/-- Claim C2: the spec's autovivification example `set("x.0", "v")` from
root `{}` crashes with `TypeError` (the integer branch calls `node()` on
`None`); from root `{"x": {}}` the dict-to-`[{}]` coercion and the
terminal index-0 assignment do happen (yielding `{"x": ["v"]}` of length
one), but `get("x.0")` still returns `None` (list reads fail), and a
non-terminal integer step never "continues into index 0": it raises
`AttributeError` at `node.get(_key)` on the fresh list. -/
theorem claim_C2 :
    pySet (.dict []) "x.0" (.str "v") = .error .typeError ∧
    pySet (.dict [("x", .dict [])]) "x.0" (.str "v")
      = .ok (.dict [("x", .list [.str "v"])]) ∧
    pyFind (.dict [("x", .list [.str "v"])]) "x" = .ok (.list [.str "v"]) ∧
    pyFind (.dict [("x", .list [.str "v"])]) "x.0" = .ok .null ∧
    pySet (.dict [("x", .dict [])]) "x.0.z" (.int 1) = .error .attributeError :=
  ⟨rfl, rfl, rfl, rfl, rfl⟩

/-- Claim C3: for every View (a container root) and every string path,
`get(path)` never raises — every failing step is caught and the whole
call returns `None`. -/
theorem claim_C3 (root : Node) (h : traversable root = true) (path : String) :
    (pyFind root path).isOk = true :=
  findAux_isOk (split_escaped path) root h (split_escaped_ne_nil path)

theorem claim_C3_witness :
    traversable (.dict [("a", .int 1)]) = true ∧
    (pyFind (.dict [("a", .int 1)]) "a.b.c").isOk = true :=
  ⟨rfl, claim_C3 (.dict [("a", .int 1)]) rfl "a.b.c"⟩

/-- Claim C4: the spec says an integer segment on a Sequence node is used
as a (possibly negative) index and returns the element.  In the code
every read that resolves a segment against a list returns `None`:
`Traverser.get` calls `.get` on the list, which raises `AttributeError`,
caught by `_find` — the `int(_key)` conversion on line 106 is dead code. -/
theorem claim_C4 :
    pyFind (.dict [("a", .list [.int 10, .int 20])]) "a.0" = .ok .null ∧
    pyFind (.dict [("a", .list [.int 10, .int 20])]) "a.-1" = .ok .null ∧
    pyFind (.dict [("a", .list [.int 10, .int 20])]) "a.1.x" = .ok .null :=
  ⟨rfl, rfl, rfl⟩

/-- Claim C5 counterexample: for a negative out-of-range index the write
is redirected to index `0`, not to the newly appended element —
`set("a.-5", "v")` on `{"a": [1]}` yields `{"a": ["v", {}]}`, not the
`{"a": [1, "v"]}` the claim's "redirected to the newly appended element"
would require. -/
theorem claim_C5_counterexample :
    pySet (.dict [("a", .list [.int 1])]) "a.-5" (.str "v")
      = .ok (.dict [("a", .list [.str "v", .dict []])]) ∧
    Node.list [.str "v", .dict []] ≠ .list [.int 1, .str "v"] :=
  ⟨rfl, by simp⟩

/-- Claim C5 (amended): `set("a.5", "v")` on `{"a": [1]}` appends exactly
one element, making the list `[1, "v"]` — but `get("a.1")` returns
`None`, not `"v"` (reads through Sequences always fail); in general a
terminal write step whose nonnegative integer segment satisfies
`index >= length` appends exactly one empty Mapping and writes the value
into the appended slot, while a negative out-of-range index is
redirected to index `0`. -/
theorem claim_C5 :
    pySet (.dict [("a", .list [.int 1])]) "a.5" (.str "v")
      = .ok (.dict [("a", .list [.int 1, .str "v"])]) ∧
    pyFind (.dict [("a", .list [.int 1, .str "v"])]) "a.1" = .ok .null ∧
    (∀ (root : Node) (loc : List String) (pk : String) (m : List (String × Node))
       (l : List Node) (seg : String) (i : Int) (v : Node),
      locateDict root loc = some m →
      dictLookup pk m = some (.list l) →
      pyToInt seg = some i → 0 ≤ i → l.length ≤ i.natAbs →
      setGo root loc pk [seg] v
        = .ok (setLocAt root loc (fun mm => dictSet pk (.list (l ++ [v])) mm))) :=
  ⟨rfl, rfl, fun _ _ _ _ _ _ _ v h1 h2 h3 h4 h5 => setGo_append_nonneg v h1 h2 h3 h4 h5⟩

theorem claim_C5_witness :
    locateDict (.dict [("a", .list [.int 1])]) [] = some [("a", .list [.int 1])] ∧
    dictLookup "a" [("a", Node.list [.int 1])] = some (.list [.int 1]) ∧
    pyToInt "5" = some 5 ∧ (0 : Int) ≤ 5 ∧ [Node.int 1].length ≤ (5 : Int).natAbs ∧
    setGo (.dict [("a", .list [.int 1])]) [] "a" ["5"] (.str "v")
      = .ok (setLocAt (.dict [("a", .list [.int 1])]) []
          (fun mm => dictSet "a" (.list ([Node.int 1] ++ [.str "v"])) mm)) :=
  ⟨rfl, rfl, rfl, by decide, by decide,
    claim_C5.2.2 (.dict [("a", .list [.int 1])]) [] "a" [("a", .list [.int 1])]
      [Node.int 1] "5" 5 (.str "v") rfl rfl rfl (by decide) (by decide)⟩

/-- Claim C6 counterexample: the placeholder trick corrupts a path that
contains the literal reserved text `KQypbNUMED` even though the path has
no dots at all, so "split on `.` with `..` as an escaped literal dot"
does not hold for every path string. -/
theorem claim_C6_counterexample :
    split_escaped "aKQypbNUMEDb" ≠ refSplitStr "aKQypbNUMEDb" := by decide

/-- Claim C6 (amended): for every path string that does not contain the
reserved placeholder text `KQypbNUMED`, `split_escaped` is exactly the
spec's grammar — split on `.`, with `..` always one literal `.` inside a
single segment and never two separators; consequently for root
`{"a.b": {"c": 1}}`, `get("a..b.c")` returns `1` and `get("a.b.c")`
returns `None`. -/
theorem claim_C6 :
    (∀ p : String, hasPH p.data = false → split_escaped p = refSplitStr p) ∧
    pyFind (.dict [("a.b", .dict [("c", .int 1)])]) "a..b.c" = .ok (.int 1) ∧
    pyFind (.dict [("a.b", .dict [("c", .int 1)])]) "a.b.c" = .ok .null := by
  refine ⟨?_, rfl, rfl⟩
  intro p hp
  unfold split_escaped refSplitStr
  calc (splitDot (pyReplace2 p.data)).map (fun cs => String.mk (restoreSeg cs))
      = ((splitDot (pyReplace2 p.data)).map restoreSeg).map String.mk := by
        rw [List.map_map]; rfl
    _ = (refSplitChars p.data).map String.mk := by rw [splitEsc_chars_eq p.data hp]

theorem claim_C6_witness :
    hasPH "a..b.c".data = false ∧ split_escaped "a..b.c" = refSplitStr "a..b.c" :=
  ⟨by decide, claim_C6.1 "a..b.c" (by decide)⟩

/-- Claim C7: `are_equal` on two Mappings compares the two independently
computed sorted-and-filtered (blacklist then whitelist) key sequences for
identity and then recursively compares the value at every retained key;
concretely `Filter(blacklist=["id"])` makes `{"id": 1, "x": 2}` equal to
`{"id": 9, "x": 2}`, while View equality without a filter (plain Python
`==`) distinguishes them. -/
theorem claim_C7 :
    (∀ (f : PyFilter) (l r : List (String × Node)),
      areEqual f (.dict l) (.dict r)
        = ((filteredKeys f l == filteredKeys f r) &&
           (filteredKeys f l).all (fun k =>
             areEqual f ((dictLookup k l).getD .null) ((dictLookup k r).getD .null)))) ∧
    areEqual ⟨["id"], []⟩ (.dict [("id", .int 1), ("x", .int 2)])
      (.dict [("id", .int 9), ("x", .int 2)]) = true ∧
    viewEq none (.dict [("id", .int 1), ("x", .int 2)])
      (.dict [("id", .int 9), ("x", .int 2)]) = false := by
  refine ⟨areEqual_dict_char, ?_, ?_⟩
  · simp [areEqual, areEqualKeys, filteredKeys, sortStrings, insertSorted, dictLookup, pyEq,
      show ¬((['x'] : List Char) ≤ ['i', 'd']) from by decide]
  · simp [viewEq, pyEq, pyEqEntries, dictLookup]

/-- Claim C8: `prune` leaves scalars untouched, prunes every Sequence
element recursively without removing elements, and at every Mapping level
deletes every key not retained by the blacklist-then-whitelist rule while
pruning retained values; concretely `Filter(blacklist=["id"])` prunes
`{"id": 1, "y": {"id": 2, "z": 3}}` to `{"y": {"z": 3}}`. -/
theorem claim_C8 :
    (∀ (f : PyFilter) (v : Node), traversable v = false → pruneNode f v = v) ∧
    (∀ (f : PyFilter) (l : List Node), pruneNode f (.list l) = .list (l.map (pruneNode f))) ∧
    (∀ (f : PyFilter) (l : List Node), (pruneList f l).length = l.length) ∧
    (∀ (f : PyFilter) (m : List (String × Node)),
      pruneNode f (.dict m) = .dict ((m.filter (fun kv => retainedKey f kv.1)).map
        (fun kv => (kv.1, pruneNode f kv.2)))) ∧
    pruneNode ⟨["id"], []⟩
        (.dict [("id", .int 1), ("y", .dict [("id", .int 2), ("z", .int 3)])])
      = .dict [("y", .dict [("z", .int 3)])] := by
  refine ⟨?_, ?_, ?_, ?_, ?_⟩
  · intro f v hv
    cases v <;> simp_all [pruneNode, traversable]
  · intro f l
    simp [pruneNode, pruneList_eq]
  · intro f l
    simp [pruneList_eq]
  · intro f m
    simp [pruneNode, pruneDict_eq]
  · simp [pruneNode, pruneDict, retainedKey]

theorem claim_C8_witness :
    traversable (.int 7) = false ∧ pruneNode ⟨["id"], []⟩ (.int 7) = .int 7 :=
  ⟨rfl, claim_C8.1 ⟨["id"], []⟩ (.int 7) rfl⟩

/-- Claim C9: the spec says `set` never fails structurally and that the
combined get/set helper raises for every non-`None` value given without a
path.  The code violates both: `_set("a.0", "v")` on `{}` raises
`TypeError` (missing falsy guard in the integer branch), `_set("a.b", v)`
over an existing truthy scalar raises `TypeError`, and
`__call__(None, 0)` returns the wrapped value instead of raising because
line 64 tests truthiness (`elif value`) rather than `is not None`; the
error is raised only for truthy values. -/
theorem claim_C9 :
    pySet (.dict []) "a.0" (.str "v") = .error .typeError ∧
    pySet (.dict [("a", .int 3)]) "a.b" (.str "v") = .error .typeError ∧
    pyCall (.dict [("k", .int 7)]) none (some (.int 0)) = .ok (.dict [("k", .int 7)]) ∧
    pyCall (.dict []) none (some (.int 1)) = .error .valueError :=
  ⟨rfl, rfl, rfl, rfl⟩

/-- Claim C10: the wrapped value of a View is always a container —
construction rejects any other resolved value with `ValueError`, `append`
and `extend` on a non-list wrapped value replace it with `[old, item]`
and `[old] ++ items` (so the result is again a container), and a
successful `set` leaves the root a container. -/
theorem claim_C10 :
    (∀ v : Node, traversable v = false → mkTraverser v = .error .valueError) ∧
    (∀ v : Node, traversable v = true → mkTraverser v = .ok v) ∧
    (∀ v item : Node, traversable (appendOp v item) = true) ∧
    (∀ v item : Node, (∀ l, v ≠ .list l) → appendOp v item = .list [v, item]) ∧
    (∀ v item : Node, traversable (extendOp v item) = true) ∧
    (∀ v item : Node, (∀ l, v ≠ .list l) → extendOp v item = .list (v :: ensureListL item)) ∧
    (∀ (root : Node) (path : String) (value r : Node),
      pySet root path value = .ok r → traversable r = true) := by
  refine ⟨?_, ?_, ?_, ?_, ?_, ?_, ?_⟩
  · intro v hv
    simp [mkTraverser, hv]
  · intro v hv
    simp [mkTraverser, hv]
  · intro v item
    cases v <;> rfl
  · intro v item hv
    cases v <;> first | rfl | exact absurd rfl (hv _)
  · intro v item
    cases v <;> rfl
  · intro v item hv
    cases v <;> first | rfl | exact absurd rfl (hv _)
  · intro root path value r h
    exact pySet_ok_traversable h

theorem claim_C10_witness :
    traversable (.int 3) = false ∧
    mkTraverser (.int 3) = .error .valueError ∧
    mkTraverser (.dict []) = .ok (.dict []) ∧
    appendOp (.dict [("a", .int 1)]) (.int 2) = .list [.dict [("a", .int 1)], .int 2] ∧
    extendOp (.int 5) (.list [.int 6]) = .list [.int 5, .int 6] ∧
    traversable (.dict [("a", .int 1)]) = true :=
  ⟨rfl, claim_C10.1 (.int 3) rfl, claim_C10.2.1 (.dict []) rfl,
    claim_C10.2.2.2.1 (.dict [("a", .int 1)]) (.int 2) (fun _ h => Node.noConfusion h),
    claim_C10.2.2.2.2.2.1 (.int 5) (.list [.int 6]) (fun _ h => Node.noConfusion h),
    claim_C10.2.2.2.2.2.2 (.dict []) "a" (.int 1) (.dict [("a", .int 1)]) rfl⟩
